import Mathlib

/-!
Verification of `src/server/utils/commandParser.js` (yunfanye/claudecodeui).

JavaScript strings are modelled as `List Char` (one element per code point,
matching the behaviour of the spread operator `[...s]` used by the source).
Node's `path.posix` functions, the JS `String.prototype.replace` substitution
rules and the `shell-quote` tokenizer used by the source are embedded below.
Filesystem reads and child-process execution are suspension points of the
source's async pipeline; they are modelled as explicit oracle parameters
(`FS`, `ExecOracle`).  Scanning loops are written with a structural
skip-counter so that every definition evaluates by kernel reduction; the
skipped region is exactly the part of the input the corresponding regex
match consumed.
-/

namespace CmdParse

/-- Convert a Lean string literal to the `List Char` model of a JS string. -/
def jsStr (s : String) : List Char := s.data

/-- The ASCII part of the JS `\s` (whitespace) character class, as used by the
regex literals and by `String.prototype.trim` in the source. -/
def isSpaceJS (c : Char) : Bool :=
  c = ' ' || c = '\t' || c = '\n' || c = '\r' || c = Char.ofNat 11 || c = Char.ofNat 12

/-- JS `String.prototype.trim` (both ends). -/
def jsTrim (s : List Char) : List Char :=
  ((s.dropWhile isSpaceJS).reverse.dropWhile isSpaceJS).reverse

/-- ECMAScript `GetSubstitution` for a replacement string against a pattern
with zero capture groups: `$$` is a dollar, `$&` the matched text, a dollar
followed by a backquote the text before the match, a dollar followed by a
quote the text after it; `$n` has no group to refer to and stays literal. -/
def getSubstitution (matched before after : List Char) : List Char → List Char
  | [] => []
  | c :: r =>
    if c = '$' then
      match r with
      | [] => ['$']
      | d :: r2 =>
        if d = '$' then '$' :: getSubstitution matched before after r2
        else if d = '&' then matched ++ getSubstitution matched before after r2
        else if d = Char.ofNat 96 then before ++ getSubstitution matched before after r2
        else if d = Char.ofNat 39 then after ++ getSubstitution matched before after r2
        else '$' :: d :: getSubstitution matched before after r2
    else c :: getSubstitution matched before after r

/-- Split a JS string at the first occurrence of `pat`, returning the parts
before and after it. -/
def splitFirst (pat : List Char) : List Char → Option (List Char × List Char)
  | [] => if pat = [] then some ([], []) else none
  | c :: rest =>
    if List.isPrefixOf pat (c :: rest) then some ([], (c :: rest).drop pat.length)
    else match splitFirst pat rest with
      | some (b, a) => some (c :: b, a)
      | none => none

/-- JS `s.replace(pat, repl)` with a string pattern: replace the first
occurrence only, processing `$`-escapes in the replacement. -/
def jsReplaceFirst (pat repl s : List Char) : List Char :=
  match splitFirst pat s with
  | none => s
  | some (before, after) => before ++ getSubstitution pat before after repl ++ after

/-- Worker for JS `s.replace(/pat/g, repl)` with a literal pattern.  `pre` is
the already-consumed prefix of the original string (needed by `$`-escapes);
while `skip` is positive the characters of an already-replaced match are
being stepped over. -/
def replaceAllGo (pat repl : List Char) : Nat → List Char → List Char → List Char
  | _, _, [] => []
  | skip + 1, pre, c :: rest => replaceAllGo pat repl skip (pre ++ [c]) rest
  | 0, pre, c :: rest =>
    if pat ≠ [] ∧ List.isPrefixOf pat (c :: rest) then
      getSubstitution pat pre ((c :: rest).drop pat.length) repl
        ++ replaceAllGo pat repl (pat.length - 1) (pre ++ [c]) rest
    else
      c :: replaceAllGo pat repl 0 (pre ++ [c]) rest

/-- JS `s.replace(/pat/g, repl)` for a regex matching the literal string
`pat`, as in the source's `/\$ARGUMENTS/g` and `/\$i/g`: every
non-overlapping occurrence is replaced, scanning left to right. -/
def jsReplaceAll (pat repl s : List Char) : List Char :=
  replaceAllGo pat repl 0 [] s

/-! ## Node `path.posix` model

The source runs these on POSIX platforms; `path.resolve` falls back to the
process working directory when no argument is absolute, so the working
directory is threaded as an explicit `cwd` parameter. -/

/-- Split on `'/'`, keeping empty segments (JS `s.split('/')`). -/
def splitOnSlash : List Char → List (List Char)
  | [] => [[]]
  | c :: rest =>
    if c = '/' then [] :: splitOnSlash rest
    else match splitOnSlash rest with
      | s :: ss => (c :: s) :: ss
      | [] => [[c]]

/-- Join segments with `'/'`. -/
def joinSlash : List (List Char) → List Char
  | [] => []
  | [s] => s
  | s :: rest => s ++ '/' :: joinSlash rest

/-- One step of Node's path normalization over segments: empty and `.`
segments are dropped, `..` pops the last kept segment (and is dropped at the
root, since the paths being normalized are absolute). -/
def normStep (acc : List (List Char)) (seg : List Char) : List (List Char) :=
  if seg = [] ∨ seg = ['.'] then acc
  else if seg = ['.', '.'] then acc.dropLast
  else acc ++ [seg]

/-- Normalized segment list of a path string. -/
def normSegs (s : List Char) : List (List Char) :=
  (splitOnSlash s).foldl normStep []

/-- Node path normalization of an absolute path. -/
def normalizeAbs (s : List Char) : List Char :=
  '/' :: joinSlash (normSegs s)

/-- `path.isAbsolute` (POSIX). -/
def isAbsJs (s : List Char) : Bool :=
  match s with
  | '/' :: _ => true
  | _ => false

/-- `path.resolve(base, p)` (POSIX): the right-most absolute prefix wins; if
neither argument is absolute the working directory is prepended. -/
def posixResolve (cwd base p : List Char) : List Char :=
  if isAbsJs p then normalizeAbs p
  else if isAbsJs base then normalizeAbs (base ++ '/' :: p)
  else normalizeAbs (cwd ++ '/' :: base ++ '/' :: p)

/-- `path.resolve(base)` (POSIX). -/
def posixResolve1 (cwd base : List Char) : List Char :=
  if isAbsJs base then normalizeAbs base else normalizeAbs (cwd ++ '/' :: base)

/-- Nonempty segments of an already-resolved absolute path. -/
def segsOf (s : List Char) : List (List Char) :=
  (splitOnSlash s).filter (· ≠ [])

/-- Length of the longest common prefix of two segment lists. -/
def commonPrefixLen : List (List Char) → List (List Char) → Nat
  | a :: as, b :: bs => if a = b then commonPrefixLen as bs + 1 else 0
  | _, _ => 0

/-- `path.relative(from, to)` (POSIX) for already-resolved absolute
arguments, which is how the source always calls it: walk up out of the
uncommon part of `from`, then down into the uncommon part of `to`. -/
def posixRelative (f t : List Char) : List Char :=
  let fs := segsOf f
  let ts := segsOf t
  let c := commonPrefixLen fs ts
  joinSlash (List.replicate (fs.length - c) ['.', '.'] ++ ts.drop c)

/-- `path.basename` (POSIX): drop trailing slashes, take the part after the
last remaining slash. -/
def posixBasename (p : List Char) : List Char :=
  ((p.reverse.dropWhile (· = '/')).takeWhile (· ≠ '/')).reverse

/-! ## `isPathSafe` (commandParser.js lines 80–89) -/

/-- `isPathSafe(filePath, basePath)`: resolve the candidate against the base,
compute the base-relative path, and require it to be nonempty, not to start
with the two characters `..`, and not to be absolute.  `cwd` models the
process working directory consulted by `path.resolve` for non-absolute
bases. -/
def isPathSafe (cwd filePath basePath : List Char) : Bool :=
  let resolvedPath := posixResolve cwd basePath filePath
  let resolvedBase := posixResolve1 cwd basePath
  let relative := posixRelative resolvedBase resolvedPath
  decide (relative ≠ []) &&
    !(List.isPrefixOf ['.', '.'] relative) &&
    !(isAbsJs relative)

/-! ## `replaceArguments` (commandParser.js lines 52–72) -/

/-- The `args` parameter of `replaceArguments`: a JS string or an array. -/
inductive JsArgs where
  | str (s : List Char)
  | arr (l : List (List Char))

/-- JS `array.join(' ')`. -/
def joinSpace (l : List (List Char)) : List Char :=
  List.intercalate [' '] l

/-- `replaceArguments(content, args)`: normalize `args` to an array (a falsy
scalar gives the empty array), replace `$ARGUMENTS` globally by the
space-join, then replace `$1` … `$9` in order by the corresponding element
or the empty string. -/
def replaceArguments (content : List Char) (args : JsArgs) : List Char :=
  if content = [] then content
  else
    let argsArray : List (List Char) :=
      match args with
      | .arr l => l
      | .str s => if s = [] then [] else [s]
    let allArgs := joinSpace argsArray
    let result := jsReplaceAll (jsStr "$ARGUMENTS") allArgs content
    [1, 2, 3, 4, 5, 6, 7, 8, 9].foldl
      (fun res i => jsReplaceAll ['$', Char.ofNat (48 + i)] (argsArray.getD (i - 1) []) res)
      result

/-! ## `sanitizeOutput` (commandParser.js lines 229–242) -/

/-- JS `ch.charCodeAt(0)` for a one-code-point string `ch`: the code point
itself on the basic plane, otherwise the leading (high) surrogate. -/
def charCodeAt0 (c : Char) : Nat :=
  if c.toNat < 65536 then c.toNat else 55296 + (c.toNat - 65536) / 1024

/-- `sanitizeOutput(output)`: keep tab, newline, carriage return and every
character whose first UTF-16 unit is at least 32 and is not DEL. -/
def sanitizeOutput (output : List Char) : List Char :=
  if output = [] then []
  else output.filter fun ch =>
    let code := charCodeAt0 ch
    code == 9 || code == 10 || code == 13 || (decide (32 ≤ code) && code != 127)

/-! ## The `shell-quote` tokenizer used by `validateCommand`

The source calls `parse` from the `shell-quote` package (not part of this
repository).  The model below follows that tokenizer for the fragment the
source can reach: whitespace-separated barewords with single/double quoting
and backslash escapes, and shell control operators, which are returned as
operator tokens.  Environment-variable expansion (`$VAR`, `${...}`), glob
and comment tokens are not modelled; a lone `$` stays a literal character,
as in the library (the source passes no environment to `parse`). -/

/-- A `shell-quote` parse result element: a plain string or an operator. -/
inductive SQToken where
  | str (s : List Char)
  | op (o : List Char)
deriving DecidableEq

/-- The single-character shell control operators. -/
def controlChars : List Char := ['&', ';', '(', ')', '|', '<', '>']

/-- Multi-character operators, in the alternation order of the library's
token pattern (first match wins). -/
def multiOps : List (List Char) :=
  [jsStr "||", jsStr "&&", jsStr ";;", jsStr "|&", jsStr "<(", jsStr "<<<",
   jsStr ">>", jsStr ">&", jsStr "<&"]

/-- Try to read an operator token at the head of the input, returning the
operator and the remaining input. -/
def matchOp (s : List Char) : Option (List Char × List Char) :=
  match multiOps.find? (fun o => List.isPrefixOf o s) with
  | some o => some (o, s.drop o.length)
  | none =>
    match s with
    | c :: rest => if c ∈ controlChars then some ([c], rest) else none
    | [] => none

/-- Lexing mode inside one bareword: normal text, single quotes, double
quotes, or just after a backslash (outside or inside double quotes). -/
inductive SQMode where
  | normal
  | inSQ
  | inDQ
  | esc
  | escDQ

/-- Read one bareword starting at the head of the input: unquoted text up to
whitespace or a control character, with single-quoted spans taken literally,
double-quoted spans allowing backslash escapes of quote, dollar, backquote
and backslash, and a backslash escaping the next character.  Returns the
word and the remaining input. -/
def readWord : SQMode → List Char → (List Char × List Char)
  | .normal, [] => ([], [])
  | .normal, c :: rest =>
    if isSpaceJS c || c ∈ controlChars then ([], c :: rest)
    else if c = Char.ofNat 39 then readWord .inSQ rest
    else if c = '"' then readWord .inDQ rest
    else if c = '\\' then readWord .esc rest
    else
      let (w, r) := readWord .normal rest
      (c :: w, r)
  | .inSQ, [] => ([], [])
  | .inSQ, c :: rest =>
    if c = Char.ofNat 39 then readWord .normal rest
    else
      let (w, r) := readWord .inSQ rest
      (c :: w, r)
  | .inDQ, [] => ([], [])
  | .inDQ, c :: rest =>
    if c = '"' then readWord .normal rest
    else if c = '\\' then readWord .escDQ rest
    else
      let (w, r) := readWord .inDQ rest
      (c :: w, r)
  | .esc, [] => (['\\'], [])
  | .esc, c :: rest =>
    let (w, r) := readWord .normal rest
    (c :: w, r)
  | .escDQ, [] => ([], [])
  | .escDQ, c :: rest =>
    let (w, r) := readWord .inDQ rest
    if c = '"' || c = '$' || c = Char.ofNat 96 || c = '\\' then (c :: w, r)
    else ('\\' :: c :: w, r)

/-- Tokenize a command line in the manner of `shell-quote`'s `parse`:
skip whitespace, read operators and barewords.  While `skip` is positive
the characters of an already-consumed token are being stepped over. -/
def tokenizeShell : Nat → List Char → List SQToken
  | _, [] => []
  | skip + 1, _ :: rest => tokenizeShell skip rest
  | 0, c :: rest =>
    if isSpaceJS c then tokenizeShell 0 rest
    else
      match matchOp (c :: rest) with
      | some (o, r) => .op o :: tokenizeShell (rest.length - r.length) rest
      | none =>
        let (w, r) := readWord .normal (c :: rest)
        .str w :: tokenizeShell (rest.length - r.length) rest

/-- `parse` from `shell-quote`, as called by the source (no environment). -/
def parseShellCommand (s : List Char) : List SQToken :=
  tokenizeShell 0 s

/-! ## `validateCommand` (commandParser.js lines 150–211) -/

/-- The fixed command allowlist (commandParser.js lines 13–26). -/
def BASH_COMMAND_ALLOWLIST : List (List Char) :=
  [jsStr "echo", jsStr "ls", jsStr "pwd", jsStr "date", jsStr "whoami",
   jsStr "git", jsStr "npm", jsStr "node", jsStr "cat", jsStr "grep",
   jsStr "find", jsStr "task-master"]

/-- The shell metacharacters rejected in arguments (the class
`[;&|`$()<>{}[\]\\]` of the source, written out). -/
def dangerousChars : List Char :=
  [';', '&', '|', Char.ofNat 96, '$', '(', ')', '<', '>',
   Char.ofNat 123, Char.ofNat 125, '[', ']', '\\']

/-- Whether an argument contains a dangerous metacharacter. -/
def hasDangerous (arg : List Char) : Bool :=
  arg.any (fun c => c ∈ dangerousChars)

/-- The `ValidationResult` record returned by `validateCommand`. -/
structure ValidationResult where
  allowed : Bool
  command : List Char
  args : List (List Char)
  error : Option (List Char) := none
deriving DecidableEq

/-- `validateCommand(commandString)`: trim, tokenize, reject operator
tokens, take the first string token as the command, reduce it to its base
name, require exact allowlist membership, and reject any argument holding a
dangerous metacharacter. -/
def validateCommand (commandString : List Char) : ValidationResult :=
  let trimmedCommand := jsTrim commandString
  if trimmedCommand = [] then
    ⟨false, [], [], some (jsStr "Empty command")⟩
  else
    let parsed := parseShellCommand trimmedCommand
    let hasOperators := parsed.any fun t =>
      match t with
      | .op _ => true
      | .str _ => false
    if hasOperators then
      ⟨false, [], [], some (jsStr "Shell operators (&&, ||, |, ;, etc.) are not allowed")⟩
    else
      let tokens := parsed.filterMap fun t =>
        match t with
        | .str s => some s
        | .op _ => none
      match tokens with
      | [] => ⟨false, [], [], some (jsStr "No valid command found")⟩
      | command :: args =>
        let commandName := posixBasename command
        let isAllowed := BASH_COMMAND_ALLOWLIST.contains commandName
        if !isAllowed then
          ⟨false, commandName, args,
           some (jsStr "Command '" ++ commandName ++ jsStr "' is not in the allowlist")⟩
        else
          match args.find? hasDangerous with
          | some arg =>
            ⟨false, commandName, args,
             some (jsStr "Argument contains dangerous characters: " ++ arg)⟩
          | none => ⟨true, commandName, args, none⟩

/-- `isBashCommandAllowed(command)` (commandParser.js lines 219–222): the
deprecated wrapper that simply forwards to `validateCommand`. -/
def isBashCommandAllowed (command : List Char) : Bool :=
  (validateCommand command).allowed

/-! ## Error taxonomy

The source throws `Error` objects whose messages carry the offending token,
path or command line; the constructors below carry the same data. -/

/-- Errors thrown by include resolution and command expansion. -/
inductive CmdErr where
  | depthExceeded (max : Nat)
  | pathTraversal (filename : List Char)
  | fileNotFound (filename : List Char)
  | readError (msg : List Char)
  | notAllowed (commandString : List Char) (err : List Char)
  | timeout (commandString : List Char)
  | execFailed (commandString : List Char) (msg : List Char)
deriving DecidableEq

deriving instance DecidableEq for Except

/-- Result of one `fs.readFile`: content, `ENOENT`, or another error. -/
inductive FsResult where
  | ok (content : List Char)
  | enoent
  | fsErr (msg : List Char)

/-- The filesystem oracle: resolved absolute path to read result. -/
def FS := List Char → FsResult

/-- Outcome of one `execFileAsync` call: captured output, a kill (set on
wall-clock timeout, surfaced as `error.killed`), or another failure with the
runtime's message (nonzero exit, spawn failure). -/
inductive ExecOutcome where
  | ok (stdout stderr : List Char)
  | errKilled
  | errOther (msg : List Char)

/-- The execution oracle: validated command and arguments to outcome.  The
`cwd`/`timeout` options and the augmented `PATH` assembled by the source are
environment plumbing absorbed into the oracle. -/
def ExecOracle := List Char → List (List Char) → ExecOutcome

/-! ## Include resolution (commandParser.js lines 98–143) -/

/-- `MAX_INCLUDE_DEPTH` (commandParser.js line 11). -/
def MAX_INCLUDE_DEPTH : Nat := 3

/-- All matches of `/(?:^|\s)@([^\s]+)/gm` in order, as
(full match, filename) pairs.  `caret` is true at the start of the string
and after a newline (the `m` flag); `skip` steps over a previous match. -/
def scanIncludes : Bool → Nat → List Char → List (List Char × List Char)
  | _, _, [] => []
  | _, skip + 1, c :: rest => scanIncludes (c = '\n') skip rest
  | caret, 0, c :: rest =>
    if caret = true ∧ c = '@' then
      let w := rest.takeWhile fun x => !isSpaceJS x
      if w ≠ [] then ('@' :: w, w) :: scanIncludes false w.length rest
      else scanIncludes false 0 rest
    else
      match rest with
      | '@' :: rest2 =>
        if isSpaceJS c then
          let w := rest2.takeWhile fun x => !isSpaceJS x
          if w ≠ [] then (c :: '@' :: w, w) :: scanIncludes false (w.length + 1) rest
          else scanIncludes (c = '\n') 0 rest
        else scanIncludes (c = '\n') 0 rest
      | _ => scanIncludes (c = '\n') 0 rest

/-- The generic marker loop shared by include resolution and command
expansion: resolve each match in order, splice its output into the evolving
result, and abort on the first error. -/
def markerLoop (resolve : List Char × List Char → Except CmdErr (List Char))
    (splice : List Char → List Char → List Char → List Char) :
    List (List Char × List Char) → List Char → Except CmdErr (List Char)
  | [], result => .ok result
  | m :: rest, result =>
    match resolve m with
    | .error e => .error e
    | .ok out => markerLoop resolve splice rest (splice result m.1 out)

/-- Resolve one `@file` match: path-guard the filename, read the file
(`ENOENT` becomes `fileNotFound`), and hand the content to `process` (the
recursive include resolution at depth + 1). -/
def resolveIncludeOne (fs : FS) (cwd basePath : List Char)
    (process : List Char → Except CmdErr (List Char))
    (m : List Char × List Char) : Except CmdErr (List Char) :=
  if !isPathSafe cwd m.2 basePath then .error (.pathTraversal m.2)
  else
    match fs (posixResolve cwd basePath m.2) with
    | .enoent => .error (.fileNotFound m.2)
    | .fsErr msg => .error (.readError msg)
    | .ok fileContent => process fileContent

/-- Splice resolved content over an `@file` match:
`result.replace(fullMatch, fullMatch.startsWith(' ') ? ' ' + processed
: processed)`. -/
def spliceInclude (result fullMatch processed : List Char) : List Char :=
  jsReplaceFirst fullMatch
    (match fullMatch with
     | ' ' :: _ => ' ' :: processed
     | _ => processed)
    result

/-- Include resolution with the remaining depth budget made structural:
`budget = MAX_INCLUDE_DEPTH - depth`, so the source's `depth >=
MAX_INCLUDE_DEPTH` guard is `budget = 0`, and recursion at `depth + 1` is
recursion at `budget - 1`.  The empty-content early return precedes the
depth check, exactly as in the source. -/
def includesGo (fs : FS) (cwd basePath : List Char) : Nat → List Char → Except CmdErr (List Char)
  | budget, content =>
    if content = [] then .ok content
    else
      match budget with
      | 0 => .error (.depthExceeded MAX_INCLUDE_DEPTH)
      | b + 1 =>
        markerLoop
          (resolveIncludeOne fs cwd basePath (fun fc => includesGo fs cwd basePath b fc))
          spliceInclude
          (scanIncludes true 0 content)
          content

/-- `processFileIncludes(content, basePath, depth)` with the filesystem and
working directory explicit. -/
def processFileIncludes (fs : FS) (cwd content basePath : List Char) (depth : Nat) :
    Except CmdErr (List Char) :=
  includesGo fs cwd basePath (MAX_INCLUDE_DEPTH - depth) content

/-! ## Bash-marker expansion (commandParser.js lines 250–312) -/

/-- All matches of `/(?:^|\n)!(.+?)(?=\n|$)/g` in order, as
(full match, command text) pairs.  `atStart` is true only at position 0
(no `m` flag); `skip` steps over a previous match. -/
def scanBash : Bool → Nat → List Char → List (List Char × List Char)
  | _, _, [] => []
  | _, skip + 1, _ :: rest => scanBash false skip rest
  | atStart, 0, c :: rest =>
    if atStart = true ∧ c = '!' then
      let line := rest.takeWhile (· ≠ '\n')
      if line ≠ [] then ('!' :: line, line) :: scanBash false line.length rest
      else scanBash false 0 rest
    else
      match rest with
      | '!' :: rest2 =>
        if c = '\n' then
          let line := rest2.takeWhile (· ≠ '\n')
          if line ≠ [] then ('\n' :: '!' :: line, line) :: scanBash false (line.length + 1) rest
          else scanBash false 0 rest
        else scanBash false 0 rest
      | _ => scanBash false 0 rest

/-- Resolve one `!command` match: trim, validate, execute through the
oracle, and classify the outcome — a kill is a timeout error, any other
failure an execution failure carrying the command line and message; success
sanitizes stdout, falling back to stderr when stdout is empty. -/
def resolveBashOne (exec : ExecOracle) (m : List Char × List Char) :
    Except CmdErr (List Char) :=
  let commandString := jsTrim m.2
  let validation := validateCommand commandString
  if !validation.allowed then
    .error (.notAllowed commandString (validation.error.getD []))
  else
    match exec validation.command validation.args with
    | .ok stdout stderr => .ok (sanitizeOutput (if stdout ≠ [] then stdout else stderr))
    | .errKilled => .error (.timeout commandString)
    | .errOther msg => .error (.execFailed commandString msg)

/-- Splice command output over a `!command` match:
`result.replace(fullMatch, fullMatch.startsWith('\n') ? '\n' + output
: output)`. -/
def spliceBash (result fullMatch output : List Char) : List Char :=
  jsReplaceFirst fullMatch
    (match fullMatch with
     | '\n' :: _ => '\n' :: output
     | _ => output)
    result

/-- `processBashCommands(content, options)` with execution made an explicit
oracle. -/
def processBashCommands (exec : ExecOracle) (content : List Char) :
    Except CmdErr (List Char) :=
  if content = [] then .ok content
  else markerLoop (resolveBashOne exec) spliceBash (scanBash true 0 content) content

/-! ## Concrete oracles used by the closed theorems below -/

/-- A finite filesystem given as (absolute path, content) pairs. -/
def fsOf (l : List (String × String)) : FS := fun p =>
  match l.find? (fun e => jsStr e.1 = p) with
  | some e => .ok (jsStr e.2)
  | none => .enoent

/-- Include chain of depth 4: A includes B includes C includes D includes E. -/
def fsChain4 : FS :=
  fsOf [("/base/B", "@C"), ("/base/C", "@D"), ("/base/D", "@E"), ("/base/E", "x")]

/-- Include chain of depth 3 whose innermost file `D` is nonempty and holds
no further markers. -/
def fsChain3 : FS :=
  fsOf [("/base/B", "@C"), ("/base/C", "@D"), ("/base/D", "leaf")]

/-- Include chain of depth 2 whose innermost file `C` holds no markers. -/
def fsChain2 : FS :=
  fsOf [("/base/B", "@C"), ("/base/C", "leaf")]

/-- Include chain of depth 3 whose innermost file `D` is empty. -/
def fsChain3e : FS :=
  fsOf [("/base/B", "@C"), ("/base/C", "@D"), ("/base/D", "")]

/-- One-file filesystem for the leading-whitespace splice theorems. -/
def fsWs : FS := fsOf [("/base/f", "X")]

/-- Filesystem where `a` exists and `b` is missing. -/
def fsAB : FS := fsOf [("/base/a", "A")]

/-- Execution oracle whose every call fails with a non-kill error. -/
def execBoom : ExecOracle := fun _ _ => .errOther (jsStr "boom")

/-- The path guard as the claim words it, for comparison with `isPathSafe`:
unsafe exactly when the base-relative resolved path is empty, starts with a
parent-directory *segment* (is `..` or begins `../`), or is absolute. -/
def pathGuardSpecSegment (cwd filePath basePath : List Char) : Bool :=
  let relative := posixRelative (posixResolve1 cwd basePath) (posixResolve cwd basePath filePath)
  decide (relative ≠ []) &&
    !(relative = ['.', '.'] || List.isPrefixOf ['.', '.', '/'] relative) &&
    !(isAbsJs relative)

/-! ## Path-normalization lemmas -/

theorem splitOnSlash_ne_nil (s : List Char) : splitOnSlash s ≠ [] := by
  induction s with
  | nil => simp [splitOnSlash]
  | cons c rest ih =>
    rcases h : splitOnSlash rest with _ | ⟨a, as⟩
    · exact absurd h ih
    · by_cases hc : c = '/'
      · simp [splitOnSlash, hc]
      · simp [splitOnSlash, hc, h]

theorem splitOnSlash_append (x y : List Char) :
    splitOnSlash (x ++ '/' :: y) = splitOnSlash x ++ splitOnSlash y := by
  induction x with
  | nil => simp [splitOnSlash]
  | cons c x ih =>
    by_cases hc : c = '/'
    · subst hc
      simp [splitOnSlash, ih]
    · rcases h : splitOnSlash x with _ | ⟨a, as⟩
      · exact absurd h (splitOnSlash_ne_nil x)
      · simp only [List.cons_append, splitOnSlash, if_neg hc, List.append_eq]
        rw [ih, h]
        simp

theorem splitOnSlash_slashfree (s : List Char) : ∀ a ∈ splitOnSlash s, '/' ∉ a := by
  induction s with
  | nil =>
    intro a ha
    simp [splitOnSlash] at ha
    simp [ha]
  | cons c rest ih =>
    intro a ha
    by_cases hc : c = '/'
    · subst hc
      simp [splitOnSlash] at ha
      rcases ha with ha | ha
      · simp [ha]
      · exact ih a ha
    · rcases h : splitOnSlash rest with _ | ⟨b, bs⟩
      · exact absurd h (splitOnSlash_ne_nil rest)
      · simp [splitOnSlash, hc, h] at ha
        rcases ha with ha | ha
        · subst ha
          intro hm
          rcases List.mem_cons.mp hm with h1 | h1
          · exact hc h1.symm
          · exact ih b (by rw [h]; exact List.mem_cons_self _ _) h1
        · exact ih a (by rw [h]; exact List.mem_cons_of_mem _ ha)

theorem splitOnSlash_of_slashfree (a : List Char) (h : '/' ∉ a) : splitOnSlash a = [a] := by
  induction a with
  | nil => rfl
  | cons c rest ih =>
    have hc : c ≠ '/' := fun hh => h (hh ▸ List.mem_cons_self _ _)
    have hr : '/' ∉ rest := fun hh => h (List.mem_cons_of_mem _ hh)
    simp [splitOnSlash, hc, ih hr]

theorem foldl_normStep_good (xs : List (List Char)) :
    ∀ acc, (∀ a ∈ acc, a ≠ [] ∧ '/' ∉ a) → (∀ x ∈ xs, '/' ∉ x) →
    ∀ a ∈ xs.foldl normStep acc, a ≠ [] ∧ '/' ∉ a := by
  induction xs with
  | nil => exact fun acc hacc _ a ha => hacc a ha
  | cons x xs ih =>
    intro acc hacc hxs a ha
    refine ih (normStep acc x) ?_ (fun y hy => hxs y (List.mem_cons_of_mem _ hy)) a ha
    intro b hb
    by_cases h1 : x = [] ∨ x = ['.']
    · rw [normStep, if_pos h1] at hb
      exact hacc b hb
    · by_cases h2 : x = ['.', '.']
      · rw [normStep, if_neg h1, if_pos h2] at hb
        exact hacc b ((List.dropLast_sublist _).subset hb)
      · rw [normStep, if_neg h1, if_neg h2] at hb
        rcases List.mem_append.mp hb with h3 | h3
        · exact hacc b h3
        · rw [List.mem_singleton] at h3
          subst h3
          exact ⟨fun hh => h1 (Or.inl hh), hxs b (List.mem_cons_self _ _)⟩

theorem normSegs_good (s : List Char) : ∀ a ∈ normSegs s, a ≠ [] ∧ '/' ∉ a :=
  foldl_normStep_good _ [] (by simp) (splitOnSlash_slashfree s)

theorem normSegs_append (x y : List Char) :
    normSegs (x ++ '/' :: y) = (splitOnSlash y).foldl normStep (normSegs x) := by
  unfold normSegs
  rw [splitOnSlash_append, List.foldl_append]

theorem splitOnSlash_joinSlash :
    ∀ N : List (List Char), (∀ a ∈ N, a ≠ [] ∧ '/' ∉ a) →
    splitOnSlash (joinSlash N) = if N = [] then [[]] else N := by
  intro N
  induction N with
  | nil => intro; simp [joinSlash, splitOnSlash]
  | cons a N ih =>
    intro h
    rcases N with _ | ⟨b, M⟩
    · simpa [joinSlash] using splitOnSlash_of_slashfree a (h a (List.mem_cons_self _ _)).2
    · have hj : joinSlash (a :: b :: M) = a ++ '/' :: joinSlash (b :: M) := rfl
      rw [hj, splitOnSlash_append,
        splitOnSlash_of_slashfree a (h a (List.mem_cons_self _ _)).2,
        ih (fun x hx => h x (List.mem_cons_of_mem _ hx))]
      simp

theorem segsOf_slashJoin (N : List (List Char)) (h : ∀ a ∈ N, a ≠ [] ∧ '/' ∉ a) :
    segsOf ('/' :: joinSlash N) = N := by
  unfold segsOf
  have h0 : splitOnSlash ('/' :: joinSlash N) = [] :: splitOnSlash (joinSlash N) := by
    simp [splitOnSlash]
  rw [h0, splitOnSlash_joinSlash N h]
  rcases N with _ | ⟨a, M⟩
  · simp
  · rw [if_neg (by simp)]
    have hall : ∀ b ∈ (a :: M : List (List Char)), decide (b ≠ []) = true := by
      intro b hb
      simpa using (h b hb).1
    calc List.filter (fun x => decide (x ≠ [])) ([] :: a :: M)
        = List.filter (fun x => decide (x ≠ [])) (a :: M) := by simp
      _ = a :: M := List.filter_eq_self.mpr hall

theorem commonPrefixLen_append (M : List (List Char)) :
    ∀ a b, commonPrefixLen (M ++ a) (M ++ b) = M.length + commonPrefixLen a b := by
  induction M with
  | nil => simp
  | cons m M ih =>
    intro a b
    show (if m = m then commonPrefixLen (M ++ a) (M ++ b) + 1 else 0)
        = (m :: M).length + commonPrefixLen a b
    rw [if_pos rfl, ih]
    simp [List.length_cons]
    omega

theorem commonPrefixLen_nil_left (t : List (List Char)) : commonPrefixLen [] t = 0 := by
  cases t <;> rfl

theorem commonPrefixLen_self_append (l t : List (List Char)) :
    commonPrefixLen l (l ++ t) = l.length := by
  have h := commonPrefixLen_append l [] t
  rw [List.append_nil, commonPrefixLen_nil_left] at h
  omega

theorem commonPrefixLen_refl (l : List (List Char)) : commonPrefixLen l l = l.length := by
  have h := commonPrefixLen_self_append l []
  rwa [List.append_nil] at h

theorem posixRelative_slashJoin (N T : List (List Char))
    (hN : ∀ a ∈ N, a ≠ [] ∧ '/' ∉ a) (hT : ∀ a ∈ T, a ≠ [] ∧ '/' ∉ a) :
    posixRelative ('/' :: joinSlash N) ('/' :: joinSlash T)
      = joinSlash (List.replicate (N.length - commonPrefixLen N T) ['.', '.']
          ++ T.drop (commonPrefixLen N T)) := by
  unfold posixRelative
  rw [segsOf_slashJoin N hN, segsOf_slashJoin T hT]

theorem normStep_plain (acc : List (List Char)) (seg : List Char)
    (h1 : ¬(seg = [] ∨ seg = ['.'])) (h2 : seg ≠ ['.', '.']) :
    normStep acc seg = acc ++ [seg] := by
  rw [normStep, if_neg h1, if_neg h2]

theorem normStep_dot (acc : List (List Char)) : normStep acc ['.'] = acc := by
  rw [normStep, if_pos (Or.inr rfl)]

theorem normStep_dotdot (acc : List (List Char)) : normStep acc ['.', '.'] = acc.dropLast := by
  rw [normStep, if_neg (by decide), if_pos rfl]

theorem isPathSafe_eq_of_abs (cwd base p : List Char)
    (hb : isAbsJs base = true) (hp : isAbsJs p = false) :
    isPathSafe cwd p base
      = (decide (posixRelative ('/' :: joinSlash (normSegs base))
            ('/' :: joinSlash ((splitOnSlash p).foldl normStep (normSegs base))) ≠ []) &&
          !(List.isPrefixOf ['.', '.'] (posixRelative ('/' :: joinSlash (normSegs base))
            ('/' :: joinSlash ((splitOnSlash p).foldl normStep (normSegs base))))) &&
          !(isAbsJs (posixRelative ('/' :: joinSlash (normSegs base))
            ('/' :: joinSlash ((splitOnSlash p).foldl normStep (normSegs base)))))) := by
  unfold isPathSafe posixResolve posixResolve1
  rw [if_neg (by simp [hp]), if_pos hb, if_pos hb]
  unfold normalizeAbs
  rw [normSegs_append]

theorem isPathSafe_ab (cwd base : List Char) (hb : isAbsJs base = true) :
    isPathSafe cwd (jsStr "a/b") base = true := by
  have hN := normSegs_good base
  have hT : ∀ s ∈ normSegs base ++ [jsStr "a", jsStr "b"], s ≠ [] ∧ '/' ∉ s := by
    intro s hs
    rcases List.mem_append.mp hs with h1 | h1
    · exact hN s h1
    · simp at h1
      rcases h1 with rfl | rfl <;> exact ⟨by decide, by decide⟩
  have hfold : (splitOnSlash (jsStr "a/b")).foldl normStep (normSegs base)
      = normSegs base ++ [jsStr "a", jsStr "b"] := by
    rw [show splitOnSlash (jsStr "a/b") = [jsStr "a", jsStr "b"] from rfl]
    simp only [List.foldl]
    rw [normStep_plain _ _ (by decide) (by decide), normStep_plain _ _ (by decide) (by decide),
      List.append_assoc]
    rfl
  rw [isPathSafe_eq_of_abs cwd base _ hb (by decide), hfold,
    posixRelative_slashJoin _ _ hN hT, commonPrefixLen_self_append, Nat.sub_self,
    List.drop_left]
  decide

theorem isPathSafe_dot (cwd base : List Char) (hb : isAbsJs base = true) :
    isPathSafe cwd (jsStr ".") base = false := by
  have hN := normSegs_good base
  have hfold : (splitOnSlash (jsStr ".")).foldl normStep (normSegs base) = normSegs base := by
    rw [show splitOnSlash (jsStr ".") = [jsStr "."] from rfl]
    simp only [List.foldl]
    exact normStep_dot _
  rw [isPathSafe_eq_of_abs cwd base _ hb (by decide), hfold,
    posixRelative_slashJoin _ _ hN hN, commonPrefixLen_refl, Nat.sub_self, List.drop_length]
  decide

theorem isPathSafe_parent (cwd base : List Char) (hb : isAbsJs base = true)
    (hne : normSegs base ≠ []) : isPathSafe cwd (jsStr "../x") base = false := by
  have hN := normSegs_good base
  obtain ⟨M, l, hMl⟩ : ∃ M l, normSegs base = M ++ [l] :=
    ⟨(normSegs base).dropLast, (normSegs base).getLast hne,
      (List.dropLast_append_getLast hne).symm⟩
  have hdl : (normSegs base).dropLast = M := by
    rw [hMl]
    simp
  have hfold : (splitOnSlash (jsStr "../x")).foldl normStep (normSegs base)
      = M ++ [(['x'] : List Char)] := by
    rw [show splitOnSlash (jsStr "../x") = [['.', '.'], ['x']] from rfl]
    simp only [List.foldl]
    rw [normStep_dotdot, hdl, normStep_plain _ _ (by decide) (by decide)]
  have hT : ∀ s ∈ M ++ [(['x'] : List Char)], s ≠ [] ∧ '/' ∉ s := by
    intro s hs
    rcases List.mem_append.mp hs with h1 | h1
    · exact hN s (by rw [hMl]; exact List.mem_append.mpr (Or.inl h1))
    · simp at h1
      subst h1
      exact ⟨by decide, by decide⟩
  rw [isPathSafe_eq_of_abs cwd base _ hb (by decide), hfold,
    posixRelative_slashJoin _ _ hN hT, hMl, commonPrefixLen_append M [l] [['x']]]
  by_cases hl : l = ['x']
  · have hc1 : commonPrefixLen [l] [['x']] = 1 := by
      rw [hl]
      decide
    rw [hc1]
    have h0 : (M ++ [l]).length - (M.length + 1) = 0 := by
      simp
    rw [h0]
    have hdrop : (M ++ [(['x'] : List Char)]).drop (M.length + 1) = [] := by
      have hlen2 : (M ++ [(['x'] : List Char)]).length = M.length + 1 := by simp
      rw [← hlen2, List.drop_length]
    rw [hdrop]
    decide
  · have hc0 : commonPrefixLen [l] [['x']] = 0 := by
      show (if l = ['x'] then commonPrefixLen [] [] + 1 else 0) = 0
      rw [if_neg hl]
    rw [hc0, Nat.add_zero]
    have h1 : (M ++ [l]).length - M.length = 1 := by simp
    rw [h1, List.drop_left]
    decide

/-- C4 counterexample: the claim fails twice.  At the base directory `/` the
guard *accepts* `../x` (resolution drops the leading `..` at the root), so
the guard is not false for `../x` at every base; and the guard's rejection
is a string-prefix test on `..`, not a parent-directory-segment test: for
the candidate `..notes` under base `/base` the claim's characterization
(`pathGuardSpecSegment`) says safe while `isPathSafe` says unsafe. -/
theorem pathGuard_claim_counterexample :
    isPathSafe (jsStr "/") (jsStr "../x") (jsStr "/") = true
    ∧ pathGuardSpecSegment (jsStr "/") (jsStr "..notes") (jsStr "/base") = true
    ∧ isPathSafe (jsStr "/") (jsStr "..notes") (jsStr "/base") = false := by
  decide

/-- C4 (amended): for every working directory and every absolute base
directory, the path guard rejects `../x` provided the base does not
normalize to the filesystem root, accepts `a/b`, and rejects `.`. -/
theorem pathGuard_fixed_candidates (cwd base : List Char) (hb : isAbsJs base = true) :
    (normSegs base ≠ [] → isPathSafe cwd (jsStr "../x") base = false)
    ∧ isPathSafe cwd (jsStr "a/b") base = true
    ∧ isPathSafe cwd (jsStr ".") base = false :=
  ⟨fun hne => isPathSafe_parent cwd base hb hne, isPathSafe_ab cwd base hb,
   isPathSafe_dot cwd base hb⟩

/-- Witness for the amended C4 theorem at the concrete base `/base`. -/
theorem pathGuard_fixed_candidates_witness :
    isPathSafe (jsStr "/") (jsStr "../x") (jsStr "/base") = false
    ∧ isPathSafe (jsStr "/") (jsStr "a/b") (jsStr "/base") = true
    ∧ isPathSafe (jsStr "/") (jsStr ".") (jsStr "/base") = false :=
  ⟨(pathGuard_fixed_candidates (jsStr "/") (jsStr "/base") (by decide)).1 (by decide),
   (pathGuard_fixed_candidates (jsStr "/") (jsStr "/base") (by decide)).2.1,
   (pathGuard_fixed_candidates (jsStr "/") (jsStr "/base") (by decide)).2.2⟩

/-- C10: the path guard returns false for every candidate whose
base-relative resolved path begins with the two characters `..` — a string
prefix test, not a path-segment test — including `..notes`, which resolves
to an ordinary file inside the base directory. -/
theorem pathGuard_rejects_dotdot_prefix :
    (∀ cwd fp bp : List Char,
      List.isPrefixOf ['.', '.']
          (posixRelative (posixResolve1 cwd bp) (posixResolve cwd bp fp)) = true →
      isPathSafe cwd fp bp = false)
    ∧ posixResolve (jsStr "/") (jsStr "/base") (jsStr "..notes") = jsStr "/base/..notes"
    ∧ isPathSafe (jsStr "/") (jsStr "..notes") (jsStr "/base") = false := by
  refine ⟨?_, by decide, by decide⟩
  intro cwd fp bp hpre
  simp only [isPathSafe]
  rw [hpre]
  simp

/-- Witness for the C10 theorem at a concrete traversal candidate. -/
theorem pathGuard_rejects_dotdot_prefix_witness :
    isPathSafe (jsStr "/") (jsStr "../evil") (jsStr "/base") = false :=
  pathGuard_rejects_dotdot_prefix.1 (jsStr "/") (jsStr "../evil") (jsStr "/base") (by decide)

/-- C1: `validateCommand "ls -la"` is allowed with command `ls` and args
`["-la"]`; `rm -rf /` is rejected with the offending basename `rm` named in
the error (exact allowlist match — the full path `/bin/ls` is judged by its
basename and allowed, while the non-listed name `lsx` is rejected despite
sharing a prefix with `ls`); `echo a && echo b` is rejected with the
operator error; and `echo $(whoami)` is rejected. -/
theorem validateCommand_examples :
    validateCommand (jsStr "ls -la") = ⟨true, jsStr "ls", [jsStr "-la"], none⟩
    ∧ validateCommand (jsStr "rm -rf /")
        = ⟨false, jsStr "rm", [jsStr "-rf", jsStr "/"],
           some (jsStr "Command 'rm' is not in the allowlist")⟩
    ∧ validateCommand (jsStr "/bin/ls -la") = ⟨true, jsStr "ls", [jsStr "-la"], none⟩
    ∧ (validateCommand (jsStr "lsx -la")).allowed = false
    ∧ validateCommand (jsStr "echo a && echo b")
        = ⟨false, [], [], some (jsStr "Shell operators (&&, ||, |, ;, etc.) are not allowed")⟩
    ∧ (validateCommand (jsStr "echo $(whoami)")).allowed = false := by
  decide

/-- C9: the deprecated `isBashCommandAllowed` agrees with the `allowed`
field of `validateCommand` on every command line — the source defines it as
exactly that projection. -/
theorem isBashCommandAllowed_agrees :
    ∀ s : List Char, isBashCommandAllowed s = (validateCommand s).allowed :=
  fun _ => rfl

/-- C6: `sanitizeOutput` keeps exactly the characters whose codepoint is 9,
10, 13, or at least 32 and not 127 (for astral codepoints the first UTF-16
unit the source inspects is a surrogate, which falls in the kept range, so
the codepoint formulation coincides); in particular
`sanitizeOutput "a\x00b\tc\n" = "ab\tc\n"`, and the function is total. -/
theorem sanitizeOutput_spec :
    (∀ s : List Char, sanitizeOutput s = s.filter fun c =>
        c.toNat == 9 || c.toNat == 10 || c.toNat == 13
          || (decide (32 ≤ c.toNat) && c.toNat != 127))
    ∧ sanitizeOutput (jsStr "a\x00b\tc\n") = jsStr "ab\tc\n" := by
  constructor
  · intro s
    unfold sanitizeOutput
    split
    · rename_i h
      rw [h]
      simp
    · apply List.filter_congr
      intro c _
      show (let code := charCodeAt0 c;
        code == 9 || code == 10 || code == 13 || (decide (32 ≤ code) && code != 127)) = _
      unfold charCodeAt0
      by_cases h : c.toNat < 65536
      · rw [if_pos h]
      · rw [if_neg h]
        have e1 : ((55296 + (c.toNat - 65536) / 1024 : Nat) == 9
            || (55296 + (c.toNat - 65536) / 1024 : Nat) == 10
            || (55296 + (c.toNat - 65536) / 1024 : Nat) == 13
            || (decide (32 ≤ (55296 + (c.toNat - 65536) / 1024 : Nat))
                && (55296 + (c.toNat - 65536) / 1024 : Nat) != 127)) = true := by
          simp only [Bool.or_eq_true, beq_iff_eq, Bool.and_eq_true, decide_eq_true_eq,
            bne_iff_ne]
          exact Or.inr ⟨by omega, by omega⟩
        have e2 : (c.toNat == 9 || c.toNat == 10 || c.toNat == 13
            || (decide (32 ≤ c.toNat) && c.toNat != 127)) = true := by
          simp only [Bool.or_eq_true, beq_iff_eq, Bool.and_eq_true, decide_eq_true_eq,
            bne_iff_ne]
          exact Or.inr ⟨by omega, by omega⟩
        rw [e1, e2]
  · decide

/-- C2 counterexample: in the depth-3 chain A→B→C→D with `D = "leaf"`
(nonempty, no markers), resolution starting at depth 0 fails with the
depth-exceeded error rather than succeeding: the source checks
`depth >= MAX_INCLUDE_DEPTH` before looking for markers, and `D` is
processed at depth 3. -/
theorem includeDepth3_counterexample :
    processFileIncludes fsChain3 (jsStr "/") (jsStr "@B") (jsStr "/base") 0
      = .error (.depthExceeded 3) := by
  decide

/-- C2 (amended): the depth-4 chain fails with the depth-exceeded error;
the depth-3 chain also fails with the same error whenever the innermost
file is nonempty (the depth check precedes the marker scan, and only the
empty-content early return precedes the depth check); a depth-2 chain
succeeds with the fully resolved body, as does a depth-3 chain whose
innermost file is empty. -/
theorem includeDepth_behavior :
    processFileIncludes fsChain4 (jsStr "/") (jsStr "@B") (jsStr "/base") 0
      = .error (.depthExceeded 3)
    ∧ processFileIncludes fsChain3 (jsStr "/") (jsStr "@B") (jsStr "/base") 0
      = .error (.depthExceeded 3)
    ∧ processFileIncludes fsChain2 (jsStr "/") (jsStr "@B") (jsStr "/base") 0
      = .ok (jsStr "leaf")
    ∧ processFileIncludes fsChain3e (jsStr "/") (jsStr "@B") (jsStr "/base") 0
      = .ok (jsStr "") := by
  decide

/-- C7 counterexample: for the body `"a\t@f"` (match begins with a tab) the
resolved content is spliced with *no* leading space — the source only
preserves a literal space (`startsWith(' ')`), so the result is `"aX"`, not
the `"a X"` the claim requires for every leading whitespace character. -/
theorem includeWhitespace_counterexample :
    processFileIncludes fsWs (jsStr "/") (jsStr "a\t@f") (jsStr "/base") 0 = .ok (jsStr "aX")
    ∧ jsStr "aX" ≠ jsStr "a X" := by
  decide

/-- C7 (amended): each `@file` match is replaced by the recursively
resolved content, and a single leading space is kept exactly when the match
began with a space character; a match beginning with a tab or newline is
replaced with the bare content (the consumed whitespace is dropped). -/
theorem includeSplice_space_only :
    processFileIncludes fsWs (jsStr "/") (jsStr "a @f") (jsStr "/base") 0 = .ok (jsStr "a X")
    ∧ processFileIncludes fsWs (jsStr "/") (jsStr "a\t@f") (jsStr "/base") 0 = .ok (jsStr "aX")
    ∧ processFileIncludes fsWs (jsStr "/") (jsStr "a\n@f") (jsStr "/base") 0 = .ok (jsStr "aX") := by
  decide

/-- C8: for a validated command (`echo hi`), execution reported as killed
(the wall-clock timeout) is classified as the timeout error and nothing
else; every other failure is classified as the execution error carrying the
original command line and the runtime's message and nothing else — the two
classifications never coincide. -/
theorem bashFailure_classification :
    ∀ out : ExecOutcome,
      (processBashCommands (fun _ _ => out) (jsStr "!echo hi")
          = .error (.timeout (jsStr "echo hi")) ↔ out = .errKilled)
      ∧ (∀ msg, processBashCommands (fun _ _ => out) (jsStr "!echo hi")
          = .error (.execFailed (jsStr "echo hi") msg) ↔ out = .errOther msg) := by
  intro out
  cases out with
  | ok so se =>
    have h : processBashCommands (fun _ _ => ExecOutcome.ok so se) (jsStr "!echo hi")
        = .ok (spliceBash (jsStr "!echo hi") (jsStr "!echo hi")
            (sanitizeOutput (if so ≠ [] then so else se))) := rfl
    refine ⟨?_, fun msg => ?_⟩ <;> rw [h] <;> simp
  | errKilled =>
    have h : processBashCommands (fun _ _ => ExecOutcome.errKilled) (jsStr "!echo hi")
        = .error (.timeout (jsStr "echo hi")) := rfl
    refine ⟨?_, fun msg => ?_⟩ <;> rw [h] <;> simp
  | errOther msg0 =>
    have h : processBashCommands (fun _ _ => ExecOutcome.errOther msg0) (jsStr "!echo hi")
        = .error (.execFailed (jsStr "echo hi") msg0) := rfl
    refine ⟨?_, fun msg => ?_⟩ <;> rw [h] <;> simp

/-- The marker loop fails with exactly the first resolution error: if every
match before `m` resolves, and `m` fails with `e`, the loop returns `e`. -/
theorem markerLoop_append_error
    (resolve : List Char × List Char → Except CmdErr (List Char))
    (splice : List Char → List Char → List Char → List Char) :
    ∀ (ms1 : List (List Char × List Char)) (m : List Char × List Char)
      (ms2 : List (List Char × List Char)) (res : List Char) (e : CmdErr),
      (∀ m' ∈ ms1, ∃ c, resolve m' = .ok c) → resolve m = .error e →
      markerLoop resolve splice (ms1 ++ m :: ms2) res = .error e := by
  intro ms1
  induction ms1 with
  | nil =>
    intro m ms2 res e _ hfail
    simp only [List.nil_append, markerLoop, hfail]
  | cons a ms ih =>
    intro m ms2 res e hok hfail
    obtain ⟨c, hc⟩ := hok a (List.mem_cons_self _ _)
    simp only [List.cons_append, markerLoop, hc]
    exact ih m ms2 _ e (fun m' hm' => hok m' (List.mem_cons_of_mem _ hm')) hfail

/-- One unfolding of `includesGo` at a positive budget. -/
theorem includesGo_succ (fs : FS) (cwd basePath : List Char) (b : Nat) (content : List Char) :
    includesGo fs cwd basePath (b + 1) content
      = if content = [] then .ok content
        else markerLoop
          (resolveIncludeOne fs cwd basePath (includesGo fs cwd basePath b))
          spliceInclude (scanIncludes true 0 content) content := rfl

/-- C3: the first failing marker aborts the whole expansion with exactly
that error — for `@file` markers in include resolution and for `!command`
markers in command expansion alike, no partially substituted body is ever
returned. -/
theorem expansion_aborts_on_first_failure :
    (∀ (fs : FS) (cwd basePath content : List Char) (depth : Nat)
        (ms1 : List (List Char × List Char)) (m : List Char × List Char)
        (ms2 : List (List Char × List Char)) (e : CmdErr),
      content ≠ [] → depth < MAX_INCLUDE_DEPTH →
      scanIncludes true 0 content = ms1 ++ m :: ms2 →
      (∀ m' ∈ ms1, ∃ c, resolveIncludeOne fs cwd basePath
          (includesGo fs cwd basePath (MAX_INCLUDE_DEPTH - depth - 1)) m' = .ok c) →
      resolveIncludeOne fs cwd basePath
          (includesGo fs cwd basePath (MAX_INCLUDE_DEPTH - depth - 1)) m = .error e →
      processFileIncludes fs cwd content basePath depth = .error e)
    ∧ (∀ (exec : ExecOracle) (content : List Char)
        (ms1 : List (List Char × List Char)) (m : List Char × List Char)
        (ms2 : List (List Char × List Char)) (e : CmdErr),
      content ≠ [] →
      scanBash true 0 content = ms1 ++ m :: ms2 →
      (∀ m' ∈ ms1, ∃ c, resolveBashOne exec m' = .ok c) →
      resolveBashOne exec m = .error e →
      processBashCommands exec content = .error e) := by
  constructor
  · intro fs cwd basePath content depth ms1 m ms2 e hne hdepth hscan hok hfail
    have hb : MAX_INCLUDE_DEPTH - depth = (MAX_INCLUDE_DEPTH - depth - 1) + 1 := by
      unfold MAX_INCLUDE_DEPTH at hdepth ⊢
      omega
    unfold processFileIncludes
    rw [hb, includesGo_succ, if_neg hne, hscan]
    exact markerLoop_append_error _ _ ms1 m ms2 content e hok hfail
  · intro exec content ms1 m ms2 e hne hscan hok hfail
    unfold processBashCommands
    rw [if_neg hne, hscan]
    exact markerLoop_append_error _ _ ms1 m ms2 content e hok hfail

/-- Witness for the C3 theorem: the body `"@a @b"` whose second include is
missing aborts with the file-not-found error, and the body `"!echo hi"`
whose execution fails aborts with the execution error. -/
theorem expansion_aborts_witness :
    processFileIncludes fsAB (jsStr "/") (jsStr "@a @b") (jsStr "/base") 0
      = .error (.fileNotFound (jsStr "b"))
    ∧ processBashCommands execBoom (jsStr "!echo hi")
      = .error (.execFailed (jsStr "echo hi") (jsStr "boom")) := by
  constructor
  · exact expansion_aborts_on_first_failure.1 fsAB (jsStr "/") (jsStr "/base") (jsStr "@a @b") 0
      [(jsStr "@a", jsStr "a")] (jsStr " @b", jsStr "b") [] (.fileNotFound (jsStr "b"))
      (by decide) (by decide) (by decide)
      (by
        intro m' hm'
        rw [List.mem_singleton] at hm'
        subst hm'
        exact ⟨jsStr "A", by decide⟩)
      (by decide)
  · exact expansion_aborts_on_first_failure.2 execBoom (jsStr "!echo hi")
      [] (jsStr "!echo hi", jsStr "echo hi") [] (.execFailed (jsStr "echo hi") (jsStr "boom"))
      (by decide) (by decide) (fun m' hm' => absurd hm' (List.not_mem_nil m'))
      (by decide)

/-! ## Global-replace lemmas for `replaceArguments` -/

theorem getSubstitution_no_dollar (m b a : List Char) :
    ∀ repl, '$' ∉ repl → getSubstitution m b a repl = repl := by
  intro repl
  induction repl with
  | nil => intro; rfl
  | cons c r ih =>
    intro h
    have hc : c ≠ '$' := fun hh => h (hh ▸ List.mem_cons_self _ _)
    have hr : '$' ∉ r := fun hh => h (List.mem_cons_of_mem _ hh)
    rw [getSubstitution.eq_def]
    simp only [if_neg hc]
    rw [ih hr]

theorem isPrefixOf_append_self : ∀ l s : List Char, List.isPrefixOf l (l ++ s) = true := by
  intro l s
  induction l with
  | nil => cases s <;> rfl
  | cons c l ih => simp [List.isPrefixOf, ih]

theorem replaceAllGo_skip (pat repl : List Char) :
    ∀ ys pre s : List Char,
      replaceAllGo pat repl ys.length pre (ys ++ s)
        = replaceAllGo pat repl 0 (pre ++ ys) s := by
  intro ys
  induction ys with
  | nil => intro pre s; simp
  | cons y ys ih =>
    intro pre s
    show replaceAllGo pat repl (ys.length + 1) pre (y :: (ys ++ s)) = _
    rw [show replaceAllGo pat repl (ys.length + 1) pre (y :: (ys ++ s))
        = replaceAllGo pat repl ys.length (pre ++ [y]) (ys ++ s) from rfl, ih,
      ← List.append_cons]

theorem replaceAllGo_copy (pt repl : List Char) :
    ∀ pre2 : List Char, (∀ c ∈ pre2, c ≠ '$') →
    ∀ pre s : List Char,
      replaceAllGo ('$' :: pt) repl 0 pre (pre2 ++ s)
        = pre2 ++ replaceAllGo ('$' :: pt) repl 0 (pre ++ pre2) s := by
  intro pre2
  induction pre2 with
  | nil => intro _ pre s; simp
  | cons c p2 ih =>
    intro h pre s
    have hc : c ≠ '$' := h c (List.mem_cons_self _ _)
    have hpre : ¬(('$' :: pt) ≠ [] ∧ List.isPrefixOf ('$' :: pt) (c :: (p2 ++ s))) := by
      rintro ⟨_, hp⟩
      simp only [List.isPrefixOf, Bool.and_eq_true, beq_iff_eq] at hp
      exact hc hp.1.symm
    show replaceAllGo ('$' :: pt) repl 0 pre (c :: (p2 ++ s)) = _
    simp only [replaceAllGo]
    rw [if_neg hpre, ih (fun x hx => h x (List.mem_cons_of_mem _ hx)) (pre ++ [c]) s,
      ← List.append_cons]
    rfl

theorem replaceAllGo_match (pt repl : List Char) (hr : '$' ∉ repl) :
    ∀ pre s : List Char,
      replaceAllGo ('$' :: pt) repl 0 pre (('$' :: pt) ++ s)
        = repl ++ replaceAllGo ('$' :: pt) repl 0 (pre ++ '$' :: pt) s := by
  intro pre s
  have hcond : ('$' :: pt) ≠ [] ∧ List.isPrefixOf ('$' :: pt) ('$' :: (pt ++ s)) := by
    exact ⟨by simp, isPrefixOf_append_self ('$' :: pt) s⟩
  show replaceAllGo ('$' :: pt) repl 0 pre ('$' :: (pt ++ s)) = _
  simp only [replaceAllGo]
  rw [if_pos hcond, getSubstitution_no_dollar _ _ _ repl hr]
  congr 1
  rw [show ('$' :: pt).length - 1 = pt.length from by simp, replaceAllGo_skip,
    ← List.append_cons]

/-- Stepping one literal `/\$c/g` replacement over a right-nested chain of
dollar-free blocks: the single occurrence at the end is replaced. -/
theorem jsReplaceAllGo_blocks (pt v : List Char) (hv : '$' ∉ v) :
    ∀ blocks : List (List Char), (∀ b ∈ blocks, ∀ c ∈ b, c ≠ '$') →
    ∀ tail : List Char, (∀ pre, replaceAllGo ('$' :: pt) v 0 pre tail = tail) →
    ∀ pre,
      replaceAllGo ('$' :: pt) v 0 pre
          (blocks.foldr (fun b acc => b ++ acc) (('$' :: pt) ++ tail))
        = blocks.foldr (fun b acc => b ++ acc) (v ++ tail) := by
  intro blocks
  induction blocks with
  | nil =>
    intro _ tail htail pre
    show replaceAllGo ('$' :: pt) v 0 pre (('$' :: pt) ++ tail) = v ++ tail
    rw [replaceAllGo_match pt v hv pre tail, htail]
  | cons b bs ih =>
    intro hb tail htail pre
    show replaceAllGo ('$' :: pt) v 0 pre
        (b ++ bs.foldr (fun b acc => b ++ acc) (('$' :: pt) ++ tail)) = _
    rw [replaceAllGo_copy pt v b (hb b (List.mem_cons_self _ _)) pre _,
      ih (fun x hx => hb x (List.mem_cons_of_mem _ hx)) tail htail (pre ++ b)]
    rfl

/-- C5 counterexample: the nine positional replacements run sequentially on
one evolving string, so the `$2` inside the first argument's *value* is
itself replaced by the second argument in the next pass:
`replaceArguments("$1", ["$2", "X"])` is `"X"`, not `"$2"`. -/
theorem replaceArguments_counterexample :
    replaceArguments (jsStr "$1") (.arr [jsStr "$2", jsStr "X"]) = jsStr "X"
    ∧ jsStr "X" ≠ jsStr "$2" := by
  decide

set_option maxHeartbeats 2000000 in
/-- C5 (amended): provided no argument value contains a dollar character,
substituting into the body `$1$2$3$4$5$6$7$8$9` yields exactly the first
nine arguments padded with empty strings, and a nonempty scalar argument
behaves as the singleton list; the operation is total. -/
theorem replaceArguments_claim (A : List (List Char)) (h : ∀ a ∈ A, '$' ∉ a) :
    replaceArguments (jsStr "$1$2$3$4$5$6$7$8$9") (.arr A)
      = List.join (List.map (fun i => A.getD i []) [0, 1, 2, 3, 4, 5, 6, 7, 8])
    ∧ ∀ content s : List Char, s ≠ [] →
        replaceArguments content (.str s) = replaceArguments content (.arr [s]) := by
  have hA : ∀ k, '$' ∉ A.getD k [] := by
    intro k
    rw [List.getD_eq_get?]
    cases hg : A.get? k with
    | none => exact List.not_mem_nil _
    | some x => exact h x (List.get?_mem hg)
  have hc : ∀ k, ∀ c ∈ A.getD k [], c ≠ '$' := fun k c hcm he => hA k (he ▸ hcm)
  have hbm : ∀ m : Nat, ∀ b ∈ (List.range m).map (fun k => A.getD k []),
      ∀ c ∈ b, c ≠ '$' := by
    intro m b hb
    rcases List.mem_map.mp hb with ⟨k, _, rfl⟩
    exact hc k
  constructor
  · have e1 : jsReplaceAll ['$', '1'] (A.getD 0 []) (jsStr "$1$2$3$4$5$6$7$8$9")
        = A.getD 0 [] ++ jsStr "$2$3$4$5$6$7$8$9" :=
      jsReplaceAllGo_blocks ['1'] (A.getD 0 []) (hA 0) [] (by simp)
        (jsStr "$2$3$4$5$6$7$8$9") (fun pre => rfl) []
    have e2 : jsReplaceAll ['$', '2'] (A.getD 1 [])
          (A.getD 0 [] ++ jsStr "$2$3$4$5$6$7$8$9")
        = A.getD 0 [] ++ (A.getD 1 [] ++ jsStr "$3$4$5$6$7$8$9") :=
      jsReplaceAllGo_blocks ['2'] (A.getD 1 []) (hA 1)
        ((List.range 1).map (fun k => A.getD k [])) (hbm 1)
        (jsStr "$3$4$5$6$7$8$9") (fun pre => rfl) []
    have e3 : jsReplaceAll ['$', '3'] (A.getD 2 [])
          (A.getD 0 [] ++ (A.getD 1 [] ++ jsStr "$3$4$5$6$7$8$9"))
        = A.getD 0 [] ++ (A.getD 1 [] ++ (A.getD 2 [] ++ jsStr "$4$5$6$7$8$9")) :=
      jsReplaceAllGo_blocks ['3'] (A.getD 2 []) (hA 2)
        ((List.range 2).map (fun k => A.getD k [])) (hbm 2)
        (jsStr "$4$5$6$7$8$9") (fun pre => rfl) []
    have e4 : jsReplaceAll ['$', '4'] (A.getD 3 [])
          (A.getD 0 [] ++ (A.getD 1 [] ++ (A.getD 2 [] ++ jsStr "$4$5$6$7$8$9")))
        = A.getD 0 [] ++ (A.getD 1 [] ++ (A.getD 2 [] ++ (A.getD 3 []
            ++ jsStr "$5$6$7$8$9"))) :=
      jsReplaceAllGo_blocks ['4'] (A.getD 3 []) (hA 3)
        ((List.range 3).map (fun k => A.getD k [])) (hbm 3)
        (jsStr "$5$6$7$8$9") (fun pre => rfl) []
    have e5 : jsReplaceAll ['$', '5'] (A.getD 4 [])
          (A.getD 0 [] ++ (A.getD 1 [] ++ (A.getD 2 [] ++ (A.getD 3 []
            ++ jsStr "$5$6$7$8$9"))))
        = A.getD 0 [] ++ (A.getD 1 [] ++ (A.getD 2 [] ++ (A.getD 3 []
            ++ (A.getD 4 [] ++ jsStr "$6$7$8$9")))) :=
      jsReplaceAllGo_blocks ['5'] (A.getD 4 []) (hA 4)
        ((List.range 4).map (fun k => A.getD k [])) (hbm 4)
        (jsStr "$6$7$8$9") (fun pre => rfl) []
    have e6 : jsReplaceAll ['$', '6'] (A.getD 5 [])
          (A.getD 0 [] ++ (A.getD 1 [] ++ (A.getD 2 [] ++ (A.getD 3 []
            ++ (A.getD 4 [] ++ jsStr "$6$7$8$9")))))
        = A.getD 0 [] ++ (A.getD 1 [] ++ (A.getD 2 [] ++ (A.getD 3 []
            ++ (A.getD 4 [] ++ (A.getD 5 [] ++ jsStr "$7$8$9"))))) :=
      jsReplaceAllGo_blocks ['6'] (A.getD 5 []) (hA 5)
        ((List.range 5).map (fun k => A.getD k [])) (hbm 5)
        (jsStr "$7$8$9") (fun pre => rfl) []
    have e7 : jsReplaceAll ['$', '7'] (A.getD 6 [])
          (A.getD 0 [] ++ (A.getD 1 [] ++ (A.getD 2 [] ++ (A.getD 3 []
            ++ (A.getD 4 [] ++ (A.getD 5 [] ++ jsStr "$7$8$9"))))))
        = A.getD 0 [] ++ (A.getD 1 [] ++ (A.getD 2 [] ++ (A.getD 3 []
            ++ (A.getD 4 [] ++ (A.getD 5 [] ++ (A.getD 6 [] ++ jsStr "$8$9")))))) :=
      jsReplaceAllGo_blocks ['7'] (A.getD 6 []) (hA 6)
        ((List.range 6).map (fun k => A.getD k [])) (hbm 6)
        (jsStr "$8$9") (fun pre => rfl) []
    have e8 : jsReplaceAll ['$', '8'] (A.getD 7 [])
          (A.getD 0 [] ++ (A.getD 1 [] ++ (A.getD 2 [] ++ (A.getD 3 []
            ++ (A.getD 4 [] ++ (A.getD 5 [] ++ (A.getD 6 [] ++ jsStr "$8$9")))))))
        = A.getD 0 [] ++ (A.getD 1 [] ++ (A.getD 2 [] ++ (A.getD 3 []
            ++ (A.getD 4 [] ++ (A.getD 5 [] ++ (A.getD 6 []
              ++ (A.getD 7 [] ++ jsStr "$9"))))))) :=
      jsReplaceAllGo_blocks ['8'] (A.getD 7 []) (hA 7)
        ((List.range 7).map (fun k => A.getD k [])) (hbm 7)
        (jsStr "$9") (fun pre => rfl) []
    have e9 : jsReplaceAll ['$', '9'] (A.getD 8 [])
          (A.getD 0 [] ++ (A.getD 1 [] ++ (A.getD 2 [] ++ (A.getD 3 []
            ++ (A.getD 4 [] ++ (A.getD 5 [] ++ (A.getD 6 []
              ++ (A.getD 7 [] ++ jsStr "$9"))))))))
        = A.getD 0 [] ++ (A.getD 1 [] ++ (A.getD 2 [] ++ (A.getD 3 []
            ++ (A.getD 4 [] ++ (A.getD 5 [] ++ (A.getD 6 []
              ++ (A.getD 7 [] ++ (A.getD 8 [] ++ jsStr "")))))))) :=
      jsReplaceAllGo_blocks ['9'] (A.getD 8 []) (hA 8)
        ((List.range 8).map (fun k => A.getD k [])) (hbm 8)
        (jsStr "") (fun pre => rfl) []
    show jsReplaceAll ['$', '9'] (A.getD 8 [])
        (jsReplaceAll ['$', '8'] (A.getD 7 [])
          (jsReplaceAll ['$', '7'] (A.getD 6 [])
            (jsReplaceAll ['$', '6'] (A.getD 5 [])
              (jsReplaceAll ['$', '5'] (A.getD 4 [])
                (jsReplaceAll ['$', '4'] (A.getD 3 [])
                  (jsReplaceAll ['$', '3'] (A.getD 2 [])
                    (jsReplaceAll ['$', '2'] (A.getD 1 [])
                      (jsReplaceAll ['$', '1'] (A.getD 0 [])
                        (jsReplaceAll (jsStr "$ARGUMENTS") (joinSpace A)
                          (jsStr "$1$2$3$4$5$6$7$8$9")))))))))) = _
    rw [show jsReplaceAll (jsStr "$ARGUMENTS") (joinSpace A) (jsStr "$1$2$3$4$5$6$7$8$9")
        = jsStr "$1$2$3$4$5$6$7$8$9" from rfl]
    rw [e1, e2, e3, e4, e5, e6, e7, e8, e9]
    rfl
  · intro content s hs
    by_cases hcon : content = []
    · rw [hcon]
      rfl
    · simp only [replaceArguments, if_neg hcon, if_neg hs]

/-- Witness for the amended C5 theorem at a concrete argument list. -/
theorem replaceArguments_claim_witness :
    replaceArguments (jsStr "$1$2$3$4$5$6$7$8$9") (.arr [jsStr "aa", jsStr "bb"])
      = jsStr "aabb"
    ∧ replaceArguments (jsStr "hi") (.str (jsStr "z"))
      = replaceArguments (jsStr "hi") (.arr [jsStr "z"]) := by
  constructor
  · rw [(replaceArguments_claim [jsStr "aa", jsStr "bb"] (by decide)).1]
    decide
  · exact (replaceArguments_claim [] (by simp)).2 (jsStr "hi") (jsStr "z") (by decide)

end CmdParse
